import Mathlib

/-!
Verification of the interval algebra of POAtools step 4
(`check_and_resolve_overlaps` and `create_gene_intervals` in
`poatools/bin/step4_exact_r_replication.py`).

The embedding models a dataframe row as a `GRec` (gene record) and the
dataframe as a `List GRec` in row order.  `sort_values('Start')` (stable on
ties, starts are never modified) is modelled by a stable insertion sort,
`df.loc[df['Gene'] == g, 'End'] = e` by a gene-keyed map over all rows, and
row deletion `df[df['Gene'] != g]` by a gene-keyed filter over all rows —
both deliberately global across chromosomes, exactly as in the source.
-/

structure GRec where
  Gene : String
  Chromosome : String
  Start : Int
  End : Int
  Primary_Class : String
deriving DecidableEq

/-- An interval row before the chromosome / derived columns are attached. -/
structure IRec0 where
  Start : Int
  End : Int
  Primary_Class : String
deriving DecidableEq

/-- A final output row of `create_gene_intervals`: columns Chromosome, Start,
End, Primary_Class, Center, Length. -/
structure IRec where
  Chromosome : String
  Start : Int
  End : Int
  Primary_Class : String
  Center : ℚ
  Length : Int
deriving DecidableEq

/-- Write a new End coordinate into a gene record. -/
def setEnd (r : GRec) (e : Int) : GRec :=
  ⟨r.Gene, r.Chromosome, r.Start, e, r.Primary_Class⟩

/-- Stable insertion used by `sortByStart`: an element is inserted in front of
the first strictly larger Start, so ties keep their original order. -/
def sortIns (x : GRec) : List GRec → List GRec
  | [] => [x]
  | y :: ys => if x.Start ≤ y.Start then x :: y :: ys else y :: sortIns x ys

/-- Model of `sort_values('Start')` (stable). -/
def sortByStart : List GRec → List GRec
  | [] => []
  | x :: xs => sortIns x (sortByStart xs)

/-- `df[df['Chromosome'] == c]`. -/
def restrict (c : String) (data : List GRec) : List GRec :=
  data.filter (fun r => r.Chromosome == c)

/-- `df[df['Chromosome'] == c].sort_values('Start')`: the live sorted
per-chromosome view re-derived by the resolver. -/
def chromData (c : String) (data : List GRec) : List GRec :=
  sortByStart (restrict c data)

/-- `resolved_data.loc[resolved_data['Gene'] == g, 'End'] = e` — the update is
keyed on the gene name over the whole table. -/
def updE (g : String) (e : Int) (data : List GRec) : List GRec :=
  data.map (fun r => if r.Gene = g then setEnd r e else r)

/-- `resolved_data = resolved_data[resolved_data['Gene'] != g]` — the removal
is keyed on the gene name over the whole table. -/
def delG (g : String) (data : List GRec) : List GRec :=
  data.filter (fun r => !(r.Gene == g))

/-- The cursor loop of `check_and_resolve_overlaps` for one chromosome `c`,
acting on the whole table `data`; `fuel` bounds the number of iterations (the
caller passes enough fuel for the loop to run to completion). -/
def resolveChromLoop : Nat → String → List GRec → Nat → List GRec
  | 0, _, data, _ => data
  | fuel + 1, c, data, i =>
    let v := chromData c data
    if h : i + 1 < v.length then
      let ri := v.get ⟨i, Nat.lt_of_succ_lt h⟩
      let ri1 := v.get ⟨i + 1, h⟩
      if ri1.Start ≤ ri.End then
        if ri.Primary_Class = ri1.Primary_Class then
          resolveChromLoop fuel c (delG ri1.Gene (updE ri.Gene (max ri.End ri1.End) data)) i
        else
          resolveChromLoop fuel c (updE ri.Gene (ri1.Start - 1) data) (i + 1)
      else
        resolveChromLoop fuel c data (i + 1)
    else data

/-- The same loop acting directly on a single chromosome's rows (no
chromosome filtering); used to state per-chromosome factorisation. -/
def resolveList : Nat → List GRec → Nat → List GRec
  | 0, l, _ => l
  | fuel + 1, l, i =>
    let v := sortByStart l
    if h : i + 1 < v.length then
      let ri := v.get ⟨i, Nat.lt_of_succ_lt h⟩
      let ri1 := v.get ⟨i + 1, h⟩
      if ri1.Start ≤ ri.End then
        if ri.Primary_Class = ri1.Primary_Class then
          resolveList fuel (delG ri1.Gene (updE ri.Gene (max ri.End ri1.End) l)) i
        else
          resolveList fuel (updE ri.Gene (ri1.Start - 1) l) (i + 1)
      else
        resolveList fuel l (i + 1)
    else l

/-- `pandas.unique`: deduplication keeping the first occurrence of each key. -/
def firstDedup : List String → List String
  | [] => []
  | x :: xs => x :: (firstDedup xs).filter (fun y => !(y == x))

/-- `check_and_resolve_overlaps`: iterate the per-chromosome cursor loop over
the chromosomes of the input, in order of first appearance.  The fuel
`(restrict c d).length` dominates the loop measure `|view| - i`, so the loop
always runs to completion. -/
def check_and_resolve_overlaps (data : List GRec) : List GRec :=
  (firstDedup (data.map (fun r => r.Chromosome))).foldl
    (fun d c => resolveChromLoop (restrict c d).length c d 0) data

/-- Stage 1 of `create_gene_intervals`: merge same-class segments that overlap
or are adjacent within one base (`row.Start <= current_end + 1`), keeping a
running (start, end, class) triple and flushing it when the run breaks. -/
def mergeRunsFrom : List IRec0 → IRec0 → List IRec0
  | [], cur => [cur]
  | row :: rest, cur =>
    if row.Primary_Class = cur.Primary_Class ∧ row.Start ≤ cur.End + 1 then
      mergeRunsFrom rest ⟨cur.Start, max cur.End row.End, cur.Primary_Class⟩
    else
      cur :: mergeRunsFrom rest row

def mergeRuns : List IRec0 → List IRec0
  | [] => []
  | x :: xs => mergeRunsFrom xs x

/-- Stage 2 (inner part): between consecutive merged intervals with a
non-empty gap, insert a filler interval spanning the gap.  As in the source,
the filler carries `merged_intervals['Primary_Class'].iloc[i]` — the label of
the preceding interval. -/
def insertGaps : List IRec0 → List IRec0
  | [] => []
  | [x] => [x]
  | x :: y :: rest =>
    if x.End + 1 ≤ y.Start - 1 then
      x :: ⟨x.End + 1, y.Start - 1, x.Primary_Class⟩ :: insertGaps (y :: rest)
    else
      x :: insertGaps (y :: rest)

/-- Stage 2 (flanks): an "Intergenic" interval before the first merged region
when it starts after position 1, and after the last merged region when the
chromosome length is recorded and exceeds its end. -/
def addFlanks (lengths : List (String × Int)) (c : String) (m : List IRec0) : List IRec0 :=
  match m with
  | [] => []
  | x :: xs =>
    let lead : List IRec0 := if 1 < x.Start then [⟨1, x.Start - 1, "Intergenic"⟩] else []
    let lastE : Int := ((x :: xs).getLast (List.cons_ne_nil x xs)).End
    let trail : List IRec0 :=
      match lengths.lookup c with
      | some L => if lastE < L then [⟨lastE + 1, L, "Intergenic"⟩] else []
      | none => []
    lead ++ insertGaps (x :: xs) ++ trail

/-- Stage 3: final merge of exactly-contiguous same-class segments
(`row.Start == current_final_end + 1`); the running end is assigned, not
maxed, exactly as in the source. -/
def finalMergeFrom : List IRec0 → IRec0 → List IRec0
  | [], cur => [cur]
  | row :: rest, cur =>
    if row.Primary_Class = cur.Primary_Class ∧ row.Start = cur.End + 1 then
      finalMergeFrom rest ⟨cur.Start, row.End, cur.Primary_Class⟩
    else
      cur :: finalMergeFrom rest row

def finalMerge : List IRec0 → List IRec0
  | [] => []
  | x :: xs => finalMergeFrom xs x

def toIRec0 (r : GRec) : IRec0 := ⟨r.Start, r.End, r.Primary_Class⟩

/-- The `final_intervals` sequence of one chromosome, before the final merge
pass. -/
def preMergeIntervals (lengths : List (String × Int)) (c : String) (data : List GRec) :
    List IRec0 :=
  addFlanks lengths c (mergeRuns ((chromData c data).map toIRec0))

/-- The `fully_merged` sequence of one chromosome. -/
def chromIntervals (lengths : List (String × Int)) (c : String) (data : List GRec) :
    List IRec0 :=
  finalMerge (preMergeIntervals lengths c data)

/-- Attach the Chromosome column and the derived Center and Length columns. -/
def toInterval (c : String) (t : IRec0) : IRec :=
  ⟨c, t.Start, t.End, t.Primary_Class, ((t.Start + t.End : Int) : ℚ) / 2, t.End - t.Start + 1⟩

/-- `create_gene_intervals`: per-chromosome pipeline (run merge, gap and flank
insertion, final merge) over the chromosomes in order of first appearance,
concatenated, with the derived columns attached. -/
def create_gene_intervals (lengths : List (String × Int)) (data : List GRec) : List IRec :=
  (firstDedup (data.map (fun r => r.Chromosome))).flatMap
    (fun c => (chromIntervals lengths c data).map (toInterval c))

/-- Output rows of a given chromosome, in output order. -/
def restrictI (c : String) (l : List IRec) : List IRec :=
  l.filter (fun r => r.Chromosome == c)

/-- The discrete columns of an output row (used to state concrete output
equalities without forcing the rational Center column). -/
def rowOf (r : IRec) : String × Int × Int × String :=
  (r.Chromosome, r.Start, r.End, r.Primary_Class)

/-- A structurally recursive decision procedure for `List.Chain'` (the one
from the library blocks kernel reduction). -/
def decChain2 {α : Type} (R : α → α → Prop) [DecidableRel R] :
    ∀ l : List α, Decidable (List.Chain' R l)
  | [] => isTrue List.chain'_nil
  | [a] => isTrue (List.chain'_singleton a)
  | a :: b :: l =>
    haveI : Decidable (List.Chain' R (b :: l)) := decChain2 R (b :: l)
    decidable_of_iff (R a b ∧ List.Chain' R (b :: l)) List.chain'_cons.symm

instance (priority := 2000) {α : Type} (R : α → α → Prop) [DecidableRel R] (l : List α) :
    Decidable (List.Chain' R l) :=
  decChain2 R l

/-- The input records are sorted ascending by Start. -/
@[reducible] def sortedInput (data : List GRec) : Prop :=
  List.Chain' (fun a b => a.Start ≤ b.Start) data

/-- Gene names are unique within each chromosome (but not necessarily across
chromosomes). -/
@[reducible] def uniquePerChrom (data : List GRec) : Prop :=
  List.Pairwise (fun r s => r.Chromosome = s.Chromosome → r.Gene ≠ s.Gene) data

/-- Gene names are globally unique. -/
@[reducible] def uniqueGenes (data : List GRec) : Prop :=
  (data.map (fun r => r.Gene)).Nodup

/-- Adjacent records (in start order) never touch: `end_i < start_j`. -/
@[reducible] def noOverlap (l : List GRec) : Prop :=
  List.Chain' (fun a b => a.End < b.Start) l

/-- The interval rows `l` tile `[a, b]` exactly: nonempty, the first starts at
`a`, the last ends at `b`, and each interval starts right after its
predecessor ends. -/
@[reducible] def tilesChrom (l : List IRec) (a b : Int) : Prop :=
  l ≠ [] ∧ l.head?.map (fun r => r.Start) = some a ∧
    l.getLast?.map (fun r => r.End) = some b ∧
    List.Chain' (fun x y => y.Start = x.End + 1) l

/-- Each record lies within `[1, L]` with a well-formed span. -/
@[reducible] def inRange (L : Int) (r : GRec) : Prop :=
  1 ≤ r.Start ∧ r.Start ≤ r.End ∧ r.End ≤ L

/-- An interval row lies within `[1, L]` with a well-formed span. -/
@[reducible] def inSpan (L : Int) (t : IRec0) : Prop :=
  1 ≤ t.Start ∧ t.Start ≤ t.End ∧ t.End ≤ L

/-- Records pairwise occupy disjoint coordinate ranges. -/
@[reducible] def pairwiseDisjoint (l : List GRec) : Prop :=
  List.Pairwise (fun r s => r.End < s.Start ∨ s.End < r.Start) l

theorem sortIns_perm (x : GRec) (l : List GRec) : (sortIns x l).Perm (x :: l) := by
  induction l with
  | nil => exact List.Perm.refl _
  | cons y ys ih =>
    unfold sortIns
    by_cases h : x.Start ≤ y.Start
    · simp [h]
    · simp only [h, if_false]
      exact (List.Perm.cons y ih).trans (List.Perm.swap x y ys)

theorem sortByStart_perm (l : List GRec) : (sortByStart l).Perm l := by
  induction l with
  | nil => exact List.Perm.refl _
  | cons x xs ih =>
    exact (sortIns_perm x (sortByStart xs)).trans (List.Perm.cons x ih)

theorem mem_sortByStart {a : GRec} {l : List GRec} : a ∈ sortByStart l ↔ a ∈ l :=
  (sortByStart_perm l).mem_iff

theorem sortByStart_length (l : List GRec) : (sortByStart l).length = l.length :=
  (sortByStart_perm l).length_eq

theorem sortIns_pairwise (x : GRec) (l : List GRec)
    (hl : l.Pairwise (fun a b => a.Start ≤ b.Start)) :
    (sortIns x l).Pairwise (fun a b => a.Start ≤ b.Start) := by
  induction l with
  | nil => simp [sortIns]
  | cons y ys ih =>
    rw [List.pairwise_cons] at hl
    unfold sortIns
    by_cases h : x.Start ≤ y.Start
    · simp only [h, if_true]
      refine List.pairwise_cons.2 ⟨?_, List.pairwise_cons.2 hl⟩
      intro z hz
      rcases List.mem_cons.1 hz with rfl | hz
      · exact h
      · exact le_trans h (hl.1 z hz)
    · simp only [h, if_false]
      refine List.pairwise_cons.2 ⟨?_, ih hl.2⟩
      intro z hz
      rcases List.mem_cons.1 ((sortIns_perm x ys).mem_iff.1 hz) with rfl | hz
      · exact le_of_lt (lt_of_not_le h)
      · exact hl.1 z hz

theorem sortByStart_pairwise (l : List GRec) :
    (sortByStart l).Pairwise (fun a b => a.Start ≤ b.Start) := by
  induction l with
  | nil => simp [sortByStart]
  | cons x xs ih => exact sortIns_pairwise x _ ih

theorem sortIns_map (f : GRec → GRec) (hf : ∀ r, (f r).Start = r.Start) (x : GRec)
    (l : List GRec) : (sortIns x l).map f = sortIns (f x) (l.map f) := by
  induction l with
  | nil => simp [sortIns]
  | cons y ys ih =>
    unfold sortIns
    by_cases h : x.Start ≤ y.Start
    · simp [h, hf]
    · simp only [h, if_false, List.map_cons]
      rw [ih]
      simp [hf, h]

theorem sortByStart_map (f : GRec → GRec) (hf : ∀ r, (f r).Start = r.Start) (l : List GRec) :
    (sortByStart l).map f = sortByStart (l.map f) := by
  induction l with
  | nil => simp [sortByStart]
  | cons x xs ih =>
    simp only [sortByStart, List.map_cons]
    rw [sortIns_map f hf, ih]

theorem sortIns_eq_cons (x : GRec) (l : List GRec) (h : ∀ z ∈ l, x.Start ≤ z.Start) :
    sortIns x l = x :: l := by
  cases l with
  | nil => rfl
  | cons y ys => simp [sortIns, h y (List.mem_cons_self y ys)]

theorem filter_sortIns (p : GRec → Bool) (x : GRec) (l : List GRec)
    (hl : l.Pairwise (fun a b => a.Start ≤ b.Start)) :
    (sortIns x l).filter p = if p x then sortIns x (l.filter p) else l.filter p := by
  induction l with
  | nil => cases hpx : p x <;> simp [sortIns, List.filter_cons, hpx]
  | cons y ys ih =>
    rw [List.pairwise_cons] at hl
    by_cases h : x.Start ≤ y.Start
    · rw [sortIns]
      simp only [if_pos h]
      cases hpx : p x with
      | false => simp [List.filter_cons, hpx]
      | true =>
        conv_lhs => rw [List.filter_cons]
        simp only [hpx, if_true]
        refine (sortIns_eq_cons x _ ?_).symm
        intro z hz
        rcases List.mem_filter.1 hz with ⟨hz2, _⟩
        rcases List.mem_cons.1 hz2 with rfl | hz3
        · exact h
        · exact le_trans h (hl.1 z hz3)
    · rw [sortIns]
      simp only [if_neg h]
      rw [List.filter_cons, List.filter_cons, ih hl.2]
      cases hpx : p x with
      | false => simp [hpx]
      | true =>
        cases hpy : p y with
        | false => simp [hpx, hpy]
        | true =>
          simp only [hpx, hpy, if_true]
          rw [sortIns]
          simp [h]

theorem filter_sortByStart (p : GRec → Bool) (l : List GRec) :
    (sortByStart l).filter p = sortByStart (l.filter p) := by
  induction l with
  | nil => rfl
  | cons x xs ih =>
    simp only [sortByStart, List.filter_cons]
    rw [filter_sortIns p x _ (sortByStart_pairwise xs), ih]
    cases hpx : p x <;> simp [sortByStart, hpx]

theorem updE_start (g : String) (e : Int) (r : GRec) :
    (if r.Gene = g then setEnd r e else r).Start = r.Start := by
  split <;> rfl

theorem updE_chrom (g : String) (e : Int) (r : GRec) :
    (if r.Gene = g then setEnd r e else r).Chromosome = r.Chromosome := by
  split <;> rfl

theorem updE_gene (g : String) (e : Int) (r : GRec) :
    (if r.Gene = g then setEnd r e else r).Gene = r.Gene := by
  split <;> rfl

theorem restrict_updE (c g : String) (e : Int) (data : List GRec) :
    restrict c (updE g e data) = updE g e (restrict c data) := by
  simp only [restrict, updE, List.filter_map]
  congr 1
  apply List.filter_congr
  intro r _
  simp [Function.comp, updE_chrom]

theorem restrict_delG (c g : String) (data : List GRec) :
    restrict c (delG g data) = delG g (restrict c data) := by
  simp only [restrict, delG, List.filter_filter]
  apply List.filter_congr
  intro r _
  simp [Bool.and_comm]

theorem sortByStart_updE (g : String) (e : Int) (l : List GRec) :
    sortByStart (updE g e l) =
      (sortByStart l).map (fun r => if r.Gene = g then setEnd r e else r) := by
  rw [updE, ← sortByStart_map _ (updE_start g e)]

theorem sortByStart_delG (g : String) (l : List GRec) :
    sortByStart (delG g l) = (sortByStart l).filter (fun r => !(r.Gene == g)) := by
  rw [delG, ← filter_sortByStart]

theorem chromData_updE (c g : String) (e : Int) (data : List GRec) :
    chromData c (updE g e data) =
      (chromData c data).map (fun r => if r.Gene = g then setEnd r e else r) := by
  rw [chromData, restrict_updE, chromData, ← sortByStart_updE, updE]

theorem chromData_delG (c g : String) (data : List GRec) :
    chromData c (delG g data) = (chromData c data).filter (fun r => !(r.Gene == g)) := by
  rw [chromData, restrict_delG, chromData, ← sortByStart_delG, delG]

theorem map_gene_updE (g : String) (e : Int) (data : List GRec) :
    (updE g e data).map (fun r => r.Gene) = data.map (fun r => r.Gene) := by
  simp only [updE, List.map_map]
  apply List.map_congr_left
  intro r _
  simp [Function.comp, updE_gene]

theorem uniqueGenes_updE (g : String) (e : Int) (data : List GRec)
    (h : uniqueGenes data) : uniqueGenes (updE g e data) := by
  unfold uniqueGenes at *
  rw [map_gene_updE]
  exact h

theorem uniqueGenes_delG (g : String) (data : List GRec) (h : uniqueGenes data) :
    uniqueGenes (delG g data) := by
  unfold uniqueGenes at *
  exact ((List.filter_sublist data).map (fun r => r.Gene)).nodup h

theorem uniqueGenes_restrict (c : String) (data : List GRec) (h : uniqueGenes data) :
    uniqueGenes (restrict c data) := by
  unfold uniqueGenes at *
  exact ((List.filter_sublist data).map (fun r => r.Gene)).nodup h

theorem uniqueGenes_sortByStart (l : List GRec) (h : uniqueGenes l) :
    ((sortByStart l).map (fun r => r.Gene)).Nodup :=
  (((sortByStart_perm l).map (fun r => r.Gene)).nodup_iff).2 h

theorem mem_chromData {r : GRec} {c : String} {data : List GRec} (h : r ∈ chromData c data) :
    r ∈ data ∧ r.Chromosome = c := by
  rw [chromData, mem_sortByStart, restrict, List.mem_filter] at h
  refine ⟨h.1, by simpa using h.2⟩

theorem nodup_genes_split {A B : List GRec} {x : GRec}
    (h : ((A ++ x :: B).map (fun r => r.Gene)).Nodup) :
    (∀ a ∈ A, a.Gene ≠ x.Gene) ∧ (∀ b ∈ B, b.Gene ≠ x.Gene) := by
  rw [List.map_append, List.map_cons, List.nodup_append] at h
  obtain ⟨-, h2, h3⟩ := h
  constructor
  · intro a ha heq
    exact h3 (List.mem_map_of_mem _ ha) (by rw [heq]; exact List.mem_cons_self _ _)
  · intro b hb heq
    rw [List.nodup_cons] at h2
    exact h2.1 (heq ▸ List.mem_map_of_mem (fun r => r.Gene) hb)

theorem map_updF_decomp {A B : List GRec} {x : GRec} {g : String} (e : Int)
    (hA : ∀ a ∈ A, a.Gene ≠ g) (hB : ∀ b ∈ B, b.Gene ≠ g) (hx : x.Gene = g) :
    (A ++ x :: B).map (fun r => if r.Gene = g then setEnd r e else r) =
      A ++ setEnd x e :: B := by
  rw [List.map_append, List.map_cons, if_pos hx]
  congr 1
  · calc A.map (fun r => if r.Gene = g then setEnd r e else r)
        = A.map id := List.map_congr_left (fun a ha => by simp [if_neg (hA a ha)])
      _ = A := List.map_id A
  · congr 1
    calc B.map (fun r => if r.Gene = g then setEnd r e else r)
        = B.map id := List.map_congr_left (fun b hb => by simp [if_neg (hB b hb)])
      _ = B := List.map_id B

theorem filter_delG_decomp {A B : List GRec} {x : GRec} {g : String}
    (hA : ∀ a ∈ A, a.Gene ≠ g) (hB : ∀ b ∈ B, b.Gene ≠ g) (hx : x.Gene = g) :
    (A ++ x :: B).filter (fun r => !(r.Gene == g)) = A ++ B := by
  rw [List.filter_append, List.filter_cons]
  have hxf : (!(x.Gene == g)) = false := by simp [hx]
  rw [hxf]
  simp only [Bool.false_eq_true, if_false]
  congr 1
  · exact List.filter_eq_self.2 (fun a ha => by simp [hA a ha])
  · exact List.filter_eq_self.2 (fun b hb => by simp [hB b hb])

theorem view_decomp (v : List GRec) (i : Nat) (h : i + 1 < v.length) :
    v = v.take i ++ v.get ⟨i, Nat.lt_of_succ_lt h⟩ :: v.get ⟨i + 1, h⟩ :: v.drop (i + 2) := by
  conv_lhs => rw [← List.take_append_drop i v]
  congr 1
  rw [List.drop_eq_get_cons (Nat.lt_of_succ_lt h)]
  congr 1
  exact List.drop_eq_get_cons h

theorem take_succ_get (v : List GRec) (i : Nat) (hi : i < v.length) :
    v.take (i + 1) = v.take i ++ [v.get ⟨i, hi⟩] := by
  rw [List.take_succ, List.getElem?_eq_getElem hi]
  simp [List.get_eq_getElem]

theorem chain'_concat {α : Type} {R : α → α → Prop} (A : List α) (x : α) :
    List.Chain' R (A ++ [x]) ↔ List.Chain' R A ∧ ∀ a ∈ A.getLast?, R a x := by
  rw [List.chain'_append]
  simp

theorem chain'_concat2 {α : Type} {R : α → α → Prop} (A : List α) (x y : α) :
    List.Chain' R (A ++ [x, y]) ↔
      (List.Chain' R A ∧ ∀ a ∈ A.getLast?, R a x) ∧ R x y := by
  rw [List.chain'_append]
  simp [List.chain'_cons, and_assoc, and_comm, and_left_comm]

theorem trunc_step_view {l : List GRec} (hnd : uniqueGenes l) {A B : List GRec}
    {ri ri1 : GRec} (hv : sortByStart l = A ++ ri :: ri1 :: B) (e : Int) :
    sortByStart (updE ri.Gene e l) = A ++ setEnd ri e :: ri1 :: B := by
  have hgen : ((A ++ ri :: ri1 :: B).map (fun r => r.Gene)).Nodup :=
    hv ▸ uniqueGenes_sortByStart l hnd
  obtain ⟨hA, hB1⟩ := nodup_genes_split hgen
  rw [sortByStart_updE, hv, map_updF_decomp e hA hB1 rfl]

theorem merge_step_view {l : List GRec} (hnd : uniqueGenes l) {A B : List GRec}
    {ri ri1 : GRec} (hv : sortByStart l = A ++ ri :: ri1 :: B) (e : Int) :
    sortByStart (delG ri1.Gene (updE ri.Gene e l)) = A ++ setEnd ri e :: B := by
  have hgen : ((A ++ ri :: ri1 :: B).map (fun r => r.Gene)).Nodup :=
    hv ▸ uniqueGenes_sortByStart l hnd
  obtain ⟨hA, hB1⟩ := nodup_genes_split hgen
  have hgen2 : (((A ++ [ri]) ++ ri1 :: B).map (fun r => r.Gene)).Nodup := by
    simpa using hgen
  obtain ⟨hA2, hB2⟩ := nodup_genes_split hgen2
  rw [sortByStart_delG, sortByStart_updE, hv, map_updF_decomp e hA hB1 rfl]
  have hsplit : A ++ setEnd ri e :: ri1 :: B = (A ++ [setEnd ri e]) ++ ri1 :: B := by simp
  rw [hsplit, filter_delG_decomp ?_ hB2 rfl]
  · simp
  · intro a ha
    rcases List.mem_append.1 ha with ha | ha
    · exact hA2 a (List.mem_append_left _ ha)
    · rcases List.mem_singleton.1 ha with rfl
      exact hA2 ri (List.mem_append_right _ (List.mem_singleton_self ri))

theorem resolveList_noOverlap (fuel : Nat) : ∀ (l : List GRec) (i : Nat),
    uniqueGenes l → (sortByStart l).length ≤ fuel + i →
    List.Chain' (fun a b => a.End < b.Start) ((sortByStart l).take (i + 1)) →
    noOverlap (sortByStart (resolveList fuel l i)) := by
  induction fuel with
  | zero =>
    intro l i _ hlen hinv
    unfold resolveList noOverlap
    rwa [List.take_of_length_le (le_trans hlen (by omega))] at hinv
  | succ fuel ih =>
    intro l i hnd hlen hinv
    rw [resolveList]
    by_cases h : i + 1 < (sortByStart l).length
    · simp only [dif_pos h]
      have hi : i < (sortByStart l).length := Nat.lt_of_succ_lt h
      set v := sortByStart l with hvdef
      set ri := v.get ⟨i, hi⟩ with hridef
      set ri1 := v.get ⟨i + 1, h⟩ with hri1def
      have hvd : v = v.take i ++ ri :: ri1 :: v.drop (i + 2) := view_decomp v i h
      have hAlen : (v.take i).length = i := by
        rw [List.length_take]; omega
      have hvlen : v.length = i + 2 + (v.drop (i + 2)).length := by
        conv_lhs => rw [hvd]
        simp only [List.length_append, List.length_cons, hAlen]
        omega
      have htake1 : v.take (i + 1) = v.take i ++ [ri] := take_succ_get v i hi
      by_cases hov : ri1.Start ≤ ri.End
      · rw [if_pos hov]
        by_cases hcls : ri.Primary_Class = ri1.Primary_Class
        · -- merge: update End, delete the second record, keep the cursor
          rw [if_pos hcls]
          have hview : sortByStart (delG ri1.Gene (updE ri.Gene (max ri.End ri1.End) l)) =
              v.take i ++ setEnd ri (max ri.End ri1.End) :: v.drop (i + 2) :=
            merge_step_view hnd (hvdef ▸ hvd) _
          apply ih
          · exact uniqueGenes_delG _ _ (uniqueGenes_updE _ _ _ hnd)
          · rw [hview]
            simp only [List.length_append, List.length_cons, hAlen]
            omega
          · rw [hview]
            have : (v.take i ++ setEnd ri (max ri.End ri1.End) :: v.drop (i + 2)).take (i + 1) =
                v.take i ++ [setEnd ri (max ri.End ri1.End)] := by
              rw [show v.take i ++ setEnd ri (max ri.End ri1.End) :: v.drop (i + 2) =
                  (v.take i ++ [setEnd ri (max ri.End ri1.End)]) ++ v.drop (i + 2) by simp]
              exact List.take_left' (by simp [hAlen])
            rw [this]
            rw [htake1] at hinv
            rw [chain'_concat] at hinv ⊢
            exact ⟨hinv.1, fun a ha => hinv.2 a ha⟩
        · -- truncate: shorten the first record, advance the cursor
          rw [if_neg hcls]
          have hview : sortByStart (updE ri.Gene (ri1.Start - 1) l) =
              v.take i ++ setEnd ri (ri1.Start - 1) :: ri1 :: v.drop (i + 2) :=
            trunc_step_view hnd (hvdef ▸ hvd) _
          apply ih
          · exact uniqueGenes_updE _ _ _ hnd
          · rw [hview]
            simp only [List.length_append, List.length_cons, hAlen]
            omega
          · rw [hview]
            have : (v.take i ++ setEnd ri (ri1.Start - 1) :: ri1 :: v.drop (i + 2)).take (i + 2) =
                v.take i ++ [setEnd ri (ri1.Start - 1), ri1] := by
              rw [show v.take i ++ setEnd ri (ri1.Start - 1) :: ri1 :: v.drop (i + 2) =
                  (v.take i ++ [setEnd ri (ri1.Start - 1), ri1]) ++ v.drop (i + 2) by simp]
              exact List.take_left' (by simp [hAlen])
            rw [this, chain'_concat2]
            rw [htake1, chain'_concat] at hinv
            refine ⟨⟨hinv.1, fun a ha => hinv.2 a ha⟩, ?_⟩
            show (setEnd ri (ri1.Start - 1)).End < ri1.Start
            show ri1.Start - 1 < ri1.Start
            omega
      · -- no overlap: just advance the cursor
        rw [if_neg hov]
        apply ih l (i + 1) hnd (by rw [← hvdef]; omega)
        have htake2 : v.take (i + 2) = v.take (i + 1) ++ [ri1] := take_succ_get v (i + 1) h
        rw [← hvdef, htake2, chain'_concat]
        refine ⟨hinv, ?_⟩
        intro a ha
        rw [htake1, List.getLast?_concat] at ha
        rcases Option.mem_some_iff.1 ha with rfl
        exact lt_of_not_le hov
    · simp only [dif_neg h]
      unfold noOverlap
      rwa [List.take_of_length_le (by omega)] at hinv

theorem restrict_resolveChromLoop (fuel : Nat) : ∀ (c : String) (data : List GRec) (i : Nat),
    restrict c (resolveChromLoop fuel c data i) = resolveList fuel (restrict c data) i := by
  induction fuel with
  | zero => intro c data i; rfl
  | succ fuel ih =>
    intro c data i
    rw [resolveChromLoop, resolveList]
    simp only [chromData]
    by_cases h : i + 1 < (sortByStart (restrict c data)).length
    · rw [dif_pos h, dif_pos h]
      by_cases hov : ((sortByStart (restrict c data)).get ⟨i + 1, h⟩).Start ≤
          ((sortByStart (restrict c data)).get ⟨i, Nat.lt_of_succ_lt h⟩).End
      · rw [if_pos hov, if_pos hov]
        by_cases hcls : ((sortByStart (restrict c data)).get ⟨i, Nat.lt_of_succ_lt h⟩).Primary_Class =
            ((sortByStart (restrict c data)).get ⟨i + 1, h⟩).Primary_Class
        · rw [if_pos hcls, if_pos hcls, ih, restrict_delG, restrict_updE]
        · rw [if_neg hcls, if_neg hcls, ih, restrict_updE]
      · rw [if_neg hov, if_neg hov, ih]
    · rw [dif_neg h, dif_neg h]


theorem restrict_updE_of_far_gene {data : List GRec} {c g : String} (e : Int)
    (hg : ∀ x ∈ restrict c data, x.Gene ≠ g) :
    restrict c (updE g e data) = restrict c data := by
  rw [restrict_updE]
  unfold updE
  calc (restrict c data).map (fun x => if x.Gene = g then setEnd x e else x)
      = (restrict c data).map id :=
        List.map_congr_left (fun x hx => by simp [if_neg (hg x hx)])
    _ = restrict c data := List.map_id _

theorem restrict_delG_of_far_gene {data : List GRec} {c g : String}
    (hg : ∀ x ∈ restrict c data, x.Gene ≠ g) :
    restrict c (delG g data) = restrict c data := by
  rw [restrict_delG]
  unfold delG
  exact List.filter_eq_self.2 (fun x hx => by simp [hg x hx])

theorem far_gene_of_mem_chromData {data : List GRec} {c c2 : String} {r : GRec}
    (hnd : uniqueGenes data) (hmem : r ∈ chromData c2 data) (hne : c ≠ c2) :
    ∀ x ∈ restrict c data, x.Gene ≠ r.Gene := by
  obtain ⟨hdat, hchr⟩ := mem_chromData hmem
  intro x hx heq
  rw [restrict, List.mem_filter] at hx
  have hxc : x.Chromosome = c := by simpa using hx.2
  have hxr : x = r := List.inj_on_of_nodup_map hnd hx.1 hdat heq
  exact hne (by rw [← hxc, hxr, hchr])

theorem uniqueGenes_resolveChromLoop (fuel : Nat) : ∀ (c : String) (data : List GRec) (i : Nat),
    uniqueGenes data → uniqueGenes (resolveChromLoop fuel c data i) := by
  induction fuel with
  | zero => intro c data i h; exact h
  | succ fuel ih =>
    intro c data i h
    rw [resolveChromLoop]
    split
    · dsimp only
      split
      · split
        · exact ih _ _ _ (uniqueGenes_delG _ _ (uniqueGenes_updE _ _ _ h))
        · exact ih _ _ _ (uniqueGenes_updE _ _ _ h)
      · exact ih _ _ _ h
    · exact h

theorem restrict_resolveChromLoop_ne (fuel : Nat) : ∀ (c2 : String) (data : List GRec)
    (i : Nat) (c : String), uniqueGenes data → c ≠ c2 →
    restrict c (resolveChromLoop fuel c2 data i) = restrict c data := by
  induction fuel with
  | zero => intro c2 data i c _ _; rfl
  | succ fuel ih =>
    intro c2 data i c hnd hne
    rw [resolveChromLoop]
    by_cases h : i + 1 < (chromData c2 data).length
    · rw [dif_pos h]
      have hmem : (chromData c2 data).get ⟨i, Nat.lt_of_succ_lt h⟩ ∈ chromData c2 data :=
        List.get_mem _ _ _
      have hmem1 : (chromData c2 data).get ⟨i + 1, h⟩ ∈ chromData c2 data :=
        List.get_mem _ _ _
      have hfar : ∀ x ∈ restrict c data,
          x.Gene ≠ ((chromData c2 data).get ⟨i, Nat.lt_of_succ_lt h⟩).Gene :=
        far_gene_of_mem_chromData hnd hmem hne
      have hfar1 : ∀ x ∈ restrict c data,
          x.Gene ≠ ((chromData c2 data).get ⟨i + 1, h⟩).Gene :=
        far_gene_of_mem_chromData hnd hmem1 hne
      dsimp only
      split
      · split
        · rw [ih _ _ _ _ (uniqueGenes_delG _ _ (uniqueGenes_updE _ _ _ hnd)) hne]
          rw [restrict_delG_of_far_gene (by
            rw [restrict_updE_of_far_gene _ hfar]; exact hfar1)]
          exact restrict_updE_of_far_gene _ hfar
        · rw [ih _ _ _ _ (uniqueGenes_updE _ _ _ hnd) hne]
          exact restrict_updE_of_far_gene _ hfar
      · exact ih _ _ _ _ hnd hne
    · rw [dif_neg h]

theorem mem_firstDedup {a : String} : ∀ l : List String, a ∈ firstDedup l ↔ a ∈ l := by
  intro l
  induction l with
  | nil => simp [firstDedup]
  | cons x xs ih =>
    rw [firstDedup]
    simp only [List.mem_cons, List.mem_filter]
    constructor
    · rintro (rfl | ⟨hmem, _⟩)
      · exact Or.inl rfl
      · exact Or.inr (ih.1 hmem)
    · rintro (rfl | hmem)
      · exact Or.inl rfl
      · by_cases hax : a = x
        · exact Or.inl hax
        · exact Or.inr ⟨ih.2 hmem, by simp [hax]⟩

theorem nodup_firstDedup : ∀ l : List String, (firstDedup l).Nodup := by
  intro l
  induction l with
  | nil => simp [firstDedup]
  | cons x xs ih =>
    rw [firstDedup]
    refine List.nodup_cons.2 ⟨?_, ih.filter _⟩
    intro hmem
    rcases List.mem_filter.1 hmem with ⟨-, hbad⟩
    simp at hbad

theorem foldl_uniqueGenes : ∀ (cs : List String) (d : List GRec), uniqueGenes d →
    uniqueGenes (cs.foldl (fun d c => resolveChromLoop (restrict c d).length c d 0) d) := by
  intro cs
  induction cs with
  | nil => intro d h; exact h
  | cons c' cs ih =>
    intro d h
    exact ih _ (uniqueGenes_resolveChromLoop _ _ _ _ h)

theorem foldl_restrict_notmem : ∀ (cs : List String) (d : List GRec) (c : String),
    uniqueGenes d → c ∉ cs →
    restrict c (cs.foldl (fun d c => resolveChromLoop (restrict c d).length c d 0) d) =
      restrict c d := by
  intro cs
  induction cs with
  | nil => intro d c _ _; rfl
  | cons c' cs ih =>
    intro d c hnd hnotin
    rw [List.foldl_cons]
    have hne : c ≠ c' := fun h => hnotin (h ▸ List.mem_cons_self c' cs)
    rw [ih _ c (uniqueGenes_resolveChromLoop _ _ _ _ hnd)
      (fun h => hnotin (List.mem_cons_of_mem c' h))]
    exact restrict_resolveChromLoop_ne _ _ _ _ _ hnd hne

theorem foldl_restrict_mem : ∀ (cs : List String) (d : List GRec) (c : String),
    uniqueGenes d → cs.Nodup → c ∈ cs →
    restrict c (cs.foldl (fun d c => resolveChromLoop (restrict c d).length c d 0) d) =
      resolveList (restrict c d).length (restrict c d) 0 := by
  intro cs
  induction cs with
  | nil => intro d c _ _ h; exact absurd h (List.not_mem_nil c)
  | cons c' cs ih =>
    intro d c hnd hndup hmem
    rw [List.foldl_cons]
    rcases List.mem_cons.1 hmem with rfl | hmem'
    · rw [foldl_restrict_notmem cs _ c (uniqueGenes_resolveChromLoop _ _ _ _ hnd)
        (List.nodup_cons.1 hndup).1]
      exact restrict_resolveChromLoop _ _ _ _
    · have hne : c ≠ c' := by
        rintro rfl
        exact (List.nodup_cons.1 hndup).1 hmem'
      have hr : restrict c (resolveChromLoop (restrict c' d).length c' d 0) = restrict c d :=
        restrict_resolveChromLoop_ne _ _ _ _ _ hnd hne
      rw [ih _ c (uniqueGenes_resolveChromLoop _ _ _ _ hnd) (List.nodup_cons.1 hndup).2 hmem',
        hr]

theorem restrict_ne_nil_iff {c : String} {data : List GRec} :
    restrict c data ≠ [] ↔ c ∈ data.map (fun r => r.Chromosome) := by
  rw [restrict, Ne, List.filter_eq_nil_iff]
  push_neg
  simp only [List.mem_map]
  constructor
  · rintro ⟨r, hr, hc⟩
    exact ⟨r, hr, by simpa using hc⟩
  · rintro ⟨r, hr, hc⟩
    exact ⟨r, hr, by simp [hc]⟩

theorem restrict_resolve_nil {data : List GRec} {c : String} (hnd : uniqueGenes data)
    (hr : restrict c data = []) :
    restrict c (check_and_resolve_overlaps data) = [] := by
  rw [check_and_resolve_overlaps, foldl_restrict_notmem _ _ _ hnd, hr]
  intro hmem
  exact (restrict_ne_nil_iff.2 ((mem_firstDedup _).1 hmem)) hr

theorem restrict_resolve_eq {data : List GRec} {c : String} (hnd : uniqueGenes data)
    (hr : restrict c data ≠ []) :
    restrict c (check_and_resolve_overlaps data) =
      resolveList (restrict c data).length (restrict c data) 0 := by
  rw [check_and_resolve_overlaps]
  exact foldl_restrict_mem _ _ _ hnd (nodup_firstDedup _)
    ((mem_firstDedup _).2 (restrict_ne_nil_iff.1 hr))

theorem chain'_take_one {α : Type} (R : α → α → Prop) (l : List α) :
    List.Chain' R (l.take 1) := by
  cases l with
  | nil => simp
  | cons x xs => simp

/-- C3 (counterexample): an input sorted ascending by Start whose gene names
are unique within each chromosome (but shared across chromosomes) for which
the output of `check_and_resolve_overlaps` still has an overlapping adjacent
pair on chromosome "chrA": merging on "chrB" rewrites the End of every row
named "G1", including the one on "chrA". -/
theorem c3_counterexample :
    sortedInput
      [⟨"G1", "chrA", 10, 20, "A"⟩, ⟨"G1", "chrB", 10, 50, "A"⟩,
       ⟨"G2", "chrA", 30, 40, "B"⟩, ⟨"G3", "chrB", 30, 80, "A"⟩] ∧
    uniquePerChrom
      [⟨"G1", "chrA", 10, 20, "A"⟩, ⟨"G1", "chrB", 10, 50, "A"⟩,
       ⟨"G2", "chrA", 30, 40, "B"⟩, ⟨"G3", "chrB", 30, 80, "A"⟩] ∧
    ¬ noOverlap (chromData "chrA" (check_and_resolve_overlaps
      [⟨"G1", "chrA", 10, 20, "A"⟩, ⟨"G1", "chrB", 10, 50, "A"⟩,
       ⟨"G2", "chrA", 30, 40, "B"⟩, ⟨"G3", "chrB", 30, 80, "A"⟩])) := by
  refine ⟨by decide, by decide, by decide⟩

/-- C3 (amended): if the gene names are globally unique (not merely unique
per chromosome) and the input is sorted ascending by Start, then on every
chromosome the adjacent pairs (in start order) of the output of
`check_and_resolve_overlaps` satisfy `end_i < start_j`. -/
theorem c3_no_overlap_of_unique_genes (data : List GRec) (hnd : uniqueGenes data)
    (_hs : sortedInput data) (c : String) :
    noOverlap (chromData c (check_and_resolve_overlaps data)) := by
  by_cases hr : restrict c data = []
  · rw [chromData, restrict_resolve_nil hnd hr]
    simp [sortByStart, noOverlap]
  · rw [chromData, restrict_resolve_eq hnd hr]
    apply resolveList_noOverlap
    · exact uniqueGenes_restrict _ _ hnd
    · rw [sortByStart_length]
      omega
    · exact chain'_take_one _ _

theorem c3_no_overlap_witness :
    uniqueGenes [⟨"G1", "1", 10, 50, "A"⟩, ⟨"G2", "1", 30, 80, "B"⟩] ∧
    sortedInput [⟨"G1", "1", 10, 50, "A"⟩, ⟨"G2", "1", 30, 80, "B"⟩] ∧
    noOverlap (chromData "1" (check_and_resolve_overlaps
      [⟨"G1", "1", 10, 50, "A"⟩, ⟨"G2", "1", 30, 80, "B"⟩])) :=
  ⟨by decide, by decide,
    c3_no_overlap_of_unique_genes _ (by decide) (by decide) "1"⟩

/-- C4 (counterexample): two inputs with gene names unique per chromosome
whose records on chromosome "chrA" agree, yet the outputs of
`check_and_resolve_overlaps` restricted to "chrA" differ, because resolving
chromosome "chrB" mutates the "chrA" record with the shared name "G1". -/
theorem c4_counterexample :
    uniquePerChrom
      [⟨"G1", "chrA", 10, 20, "A"⟩, ⟨"G1", "chrB", 10, 50, "A"⟩,
       ⟨"G2", "chrA", 30, 40, "B"⟩, ⟨"G3", "chrB", 30, 80, "A"⟩] ∧
    uniquePerChrom [⟨"G1", "chrA", 10, 20, "A"⟩, ⟨"G2", "chrA", 30, 40, "B"⟩] ∧
    restrict "chrA"
      [⟨"G1", "chrA", 10, 20, "A"⟩, ⟨"G1", "chrB", 10, 50, "A"⟩,
       ⟨"G2", "chrA", 30, 40, "B"⟩, ⟨"G3", "chrB", 30, 80, "A"⟩] =
      restrict "chrA" [⟨"G1", "chrA", 10, 20, "A"⟩, ⟨"G2", "chrA", 30, 40, "B"⟩] ∧
    restrict "chrA" (check_and_resolve_overlaps
      [⟨"G1", "chrA", 10, 20, "A"⟩, ⟨"G1", "chrB", 10, 50, "A"⟩,
       ⟨"G2", "chrA", 30, 40, "B"⟩, ⟨"G3", "chrB", 30, 80, "A"⟩]) ≠
      restrict "chrA" (check_and_resolve_overlaps
        [⟨"G1", "chrA", 10, 20, "A"⟩, ⟨"G2", "chrA", 30, 40, "B"⟩]) := by
  refine ⟨by decide, by decide, by decide, by decide⟩

/-- C4 (amended): with globally unique gene names, overlap resolution is
per-chromosome independent: two inputs agreeing on chromosome `c` have equal
outputs on `c`, and running the cursor loop for a chromosome other than `c`
never changes the rows of `c`. -/
theorem c4_per_chromosome_independence (d1 d2 : List GRec) (c : String)
    (h1 : uniqueGenes d1) (h2 : uniqueGenes d2)
    (heq : restrict c d1 = restrict c d2) :
    restrict c (check_and_resolve_overlaps d1) =
      restrict c (check_and_resolve_overlaps d2) ∧
    ∀ (fuel i : Nat) (c2 : String), c2 ≠ c →
      restrict c (resolveChromLoop fuel c2 d1 i) = restrict c d1 := by
  constructor
  · by_cases hr : restrict c d1 = []
    · rw [restrict_resolve_nil h1 hr, restrict_resolve_nil h2 (heq ▸ hr)]
    · rw [restrict_resolve_eq h1 hr, restrict_resolve_eq h2 (heq ▸ hr), heq]
  · intro fuel i c2 hne
    exact restrict_resolveChromLoop_ne fuel c2 d1 i c h1 (Ne.symm hne)

theorem c4_independence_witness :
    uniqueGenes [⟨"G1", "chrA", 10, 20, "A"⟩, ⟨"G2", "chrB", 5, 9, "B"⟩] ∧
    uniqueGenes [⟨"G1", "chrA", 10, 20, "A"⟩] ∧
    restrict "chrA" [⟨"G1", "chrA", 10, 20, "A"⟩, ⟨"G2", "chrB", 5, 9, "B"⟩] =
      restrict "chrA" [⟨"G1", "chrA", 10, 20, "A"⟩] ∧
    (restrict "chrA" (check_and_resolve_overlaps
        [⟨"G1", "chrA", 10, 20, "A"⟩, ⟨"G2", "chrB", 5, 9, "B"⟩]) =
      restrict "chrA" (check_and_resolve_overlaps [⟨"G1", "chrA", 10, 20, "A"⟩]) ∧
    ∀ (fuel i : Nat) (c2 : String), c2 ≠ "chrA" →
      restrict "chrA" (resolveChromLoop fuel c2
        [⟨"G1", "chrA", 10, 20, "A"⟩, ⟨"G2", "chrB", 5, 9, "B"⟩] i) =
        restrict "chrA" [⟨"G1", "chrA", 10, 20, "A"⟩, ⟨"G2", "chrB", 5, 9, "B"⟩]) :=
  ⟨by decide, by decide, by decide,
    c4_per_chromosome_independence _ _ "chrA" (by decide) (by decide) (by decide)⟩

/-- C7: whenever two records of one chromosome with distinct gene names and
different labels overlap (`start1 ≤ start2 ≤ end1`), the resolver truncates
the earlier-starting record to end at `start2 − 1` and leaves the later
record unchanged. -/
theorem c7_truncation (r1 r2 : GRec) (hchr : r1.Chromosome = r2.Chromosome)
    (hg : r1.Gene ≠ r2.Gene) (hst : r1.Start ≤ r2.Start) (hov : r2.Start ≤ r1.End)
    (hcls : r1.Primary_Class ≠ r2.Primary_Class) :
    check_and_resolve_overlaps [r1, r2] = [setEnd r1 (r2.Start - 1), r2] := by
  have hre : restrict r1.Chromosome [r1, r2] = [r1, r2] := by
    simp [restrict, ← hchr]
  have hsort : sortByStart [r1, r2] = [r1, r2] := by
    simp [sortByStart, sortIns, hst]
  have hcd : chromData r1.Chromosome [r1, r2] = [r1, r2] := by
    rw [chromData, hre, hsort]
  have hupd : updE r1.Gene (r2.Start - 1) [r1, r2] = [setEnd r1 (r2.Start - 1), r2] := by
    simp [updE, Ne.symm hg]
  have hre2 : restrict r1.Chromosome [setEnd r1 (r2.Start - 1), r2] =
      [setEnd r1 (r2.Start - 1), r2] := by
    simp [restrict, setEnd, ← hchr]
  have hsort2 : sortByStart [setEnd r1 (r2.Start - 1), r2] =
      [setEnd r1 (r2.Start - 1), r2] := by
    simp [sortByStart, sortIns, setEnd, hst]
  have hcd2 : chromData r1.Chromosome [setEnd r1 (r2.Start - 1), r2] =
      [setEnd r1 (r2.Start - 1), r2] := by
    rw [chromData, hre2, hsort2]
  have hchroms : firstDedup ([r1, r2].map (fun r => r.Chromosome)) = [r1.Chromosome] := by
    simp [firstDedup, ← hchr]
  rw [check_and_resolve_overlaps, hchroms, List.foldl_cons, List.foldl_nil, hre]
  show resolveChromLoop 2 r1.Chromosome [r1, r2] 0 = _
  rw [show (2 : Nat) = 1 + 1 from rfl, resolveChromLoop]
  rw [dif_pos (show 0 + 1 < (chromData r1.Chromosome [r1, r2]).length by rw [hcd]; norm_num)]
  dsimp only
  simp only [hcd, List.get_eq_getElem, List.getElem_cons_zero, List.getElem_cons_succ]
  rw [if_pos hov, if_neg hcls, hupd]
  rw [show (1 : Nat) = 0 + 1 from rfl, resolveChromLoop]
  rw [dif_neg (by rw [hcd2]; norm_num)]

theorem c7_truncation_witness :
    check_and_resolve_overlaps [⟨"G1", "1", 10, 50, "A"⟩, ⟨"G2", "1", 30, 80, "B"⟩] =
      [⟨"G1", "1", 10, 29, "A"⟩, ⟨"G2", "1", 30, 80, "B"⟩] :=
  c7_truncation ⟨"G1", "1", 10, 50, "A"⟩ ⟨"G2", "1", 30, 80, "B"⟩
    (by decide) (by decide) (by decide) (by decide) (by decide)

/-- C8: whenever two records of one chromosome with distinct gene names and
the same label overlap, the resolver merges them into the single
earlier-starting record whose End is the maximum of the two Ends. -/
theorem c8_merge (r1 r2 : GRec) (hchr : r1.Chromosome = r2.Chromosome)
    (hg : r1.Gene ≠ r2.Gene) (hst : r1.Start ≤ r2.Start) (hov : r2.Start ≤ r1.End)
    (hcls : r1.Primary_Class = r2.Primary_Class) :
    check_and_resolve_overlaps [r1, r2] = [setEnd r1 (max r1.End r2.End)] := by
  have hre : restrict r1.Chromosome [r1, r2] = [r1, r2] := by
    simp [restrict, ← hchr]
  have hsort : sortByStart [r1, r2] = [r1, r2] := by
    simp [sortByStart, sortIns, hst]
  have hcd : chromData r1.Chromosome [r1, r2] = [r1, r2] := by
    rw [chromData, hre, hsort]
  have hupd : updE r1.Gene (max r1.End r2.End) [r1, r2] =
      [setEnd r1 (max r1.End r2.End), r2] := by
    simp [updE, Ne.symm hg]
  have hdel : delG r2.Gene [setEnd r1 (max r1.End r2.End), r2] =
      [setEnd r1 (max r1.End r2.End)] := by
    simp [delG, setEnd, hg]
  have hre2 : restrict r1.Chromosome [setEnd r1 (max r1.End r2.End)] =
      [setEnd r1 (max r1.End r2.End)] := by
    simp [restrict, setEnd]
  have hcd2 : chromData r1.Chromosome [setEnd r1 (max r1.End r2.End)] =
      [setEnd r1 (max r1.End r2.End)] := by
    rw [chromData, hre2]
    rfl
  have hchroms : firstDedup ([r1, r2].map (fun r => r.Chromosome)) = [r1.Chromosome] := by
    simp [firstDedup, ← hchr]
  rw [check_and_resolve_overlaps, hchroms, List.foldl_cons, List.foldl_nil, hre]
  show resolveChromLoop 2 r1.Chromosome [r1, r2] 0 = _
  rw [show (2 : Nat) = 1 + 1 from rfl, resolveChromLoop]
  rw [dif_pos (show 0 + 1 < (chromData r1.Chromosome [r1, r2]).length by rw [hcd]; norm_num)]
  dsimp only
  simp only [hcd, List.get_eq_getElem, List.getElem_cons_zero, List.getElem_cons_succ]
  rw [if_pos hov, if_pos hcls, hupd, hdel]
  rw [show (1 : Nat) = 0 + 1 from rfl, resolveChromLoop]
  rw [dif_neg (by rw [hcd2]; norm_num)]

theorem c8_merge_witness :
    check_and_resolve_overlaps [⟨"G1", "1", 10, 50, "A"⟩, ⟨"G2", "1", 30, 80, "A"⟩] =
      [⟨"G1", "1", 10, 80, "A"⟩] :=
  c8_merge ⟨"G1", "1", 10, 50, "A"⟩ ⟨"G2", "1", 30, 80, "A"⟩
    (by decide) (by decide) (by decide) (by decide) (by decide)

theorem mergeRunsFrom_ne_nil : ∀ (rest : List IRec0) (cur : IRec0),
    mergeRunsFrom rest cur ≠ [] := by
  intro rest
  induction rest with
  | nil => intro cur; simp [mergeRunsFrom]
  | cons row rest ih =>
    intro cur
    rw [mergeRunsFrom]
    split
    · exact ih _
    · simp

theorem mergeRunsFrom_head : ∀ (rest : List IRec0) (cur : IRec0),
    ∃ e, (mergeRunsFrom rest cur).head? = some ⟨cur.Start, e, cur.Primary_Class⟩ := by
  intro rest
  induction rest with
  | nil => intro cur; exact ⟨cur.End, rfl⟩
  | cons row rest ih =>
    intro cur
    rw [mergeRunsFrom]
    split
    · obtain ⟨e, he⟩ := ih ⟨cur.Start, max cur.End row.End, cur.Primary_Class⟩
      exact ⟨e, he⟩
    · exact ⟨cur.End, rfl⟩

theorem mergeRunsFrom_chain_gap : ∀ (rest : List IRec0) (cur : IRec0),
    List.Chain' (fun a b => a.Primary_Class = b.Primary_Class → a.End + 2 ≤ b.Start)
      (mergeRunsFrom rest cur) := by
  intro rest
  induction rest with
  | nil => intro cur; simp [mergeRunsFrom]
  | cons row rest ih =>
    intro cur
    rw [mergeRunsFrom]
    split
    · exact ih _
    · rename_i hflush
      rw [List.chain'_cons']
      refine ⟨?_, ih row⟩
      intro y hy
      obtain ⟨e, he⟩ := mergeRunsFrom_head rest row
      rw [he] at hy
      rcases Option.mem_some_iff.1 hy with rfl
      intro hcl
      show cur.End + 2 ≤ row.Start
      have hcl2 : row.Primary_Class = cur.Primary_Class := by
        exact hcl.symm
      have : ¬ row.Start ≤ cur.End + 1 := fun hle => hflush ⟨hcl2, hle⟩
      omega

theorem mergeRunsFrom_classes : ∀ (rest : List IRec0) (cur : IRec0),
    ∀ x ∈ mergeRunsFrom rest cur,
      x.Primary_Class = cur.Primary_Class ∨
        x.Primary_Class ∈ rest.map (fun t => t.Primary_Class) := by
  intro rest
  induction rest with
  | nil =>
    intro cur x hx
    rcases List.mem_singleton.1 hx with rfl
    exact Or.inl rfl
  | cons row rest ih =>
    intro cur x hx
    rw [mergeRunsFrom] at hx
    rw [List.map_cons]
    split at hx
    · rcases ih _ x hx with h | h
      · exact Or.inl h
      · exact Or.inr (List.mem_cons_of_mem _ h)
    · rcases List.mem_cons.1 hx with rfl | hx2
      · exact Or.inl rfl
      · rcases ih row x hx2 with h | h
        · exact Or.inr (h ▸ List.mem_cons_self _ _)
        · exact Or.inr (List.mem_cons_of_mem _ h)

theorem mergeRunsFrom_tiling (L : Int) : ∀ (rest : List IRec0) (cur : IRec0),
    inSpan L cur → (∀ r ∈ rest, inSpan L r) →
    List.Pairwise (fun a b => a.End < b.Start) rest →
    (∀ r ∈ rest, cur.End < r.Start) →
    (∀ x ∈ mergeRunsFrom rest cur, inSpan L x) ∧
    List.Chain' (fun a b => a.End + 1 ≤ b.Start) (mergeRunsFrom rest cur) := by
  intro rest
  induction rest with
  | nil =>
    intro cur hc _ _ _
    refine ⟨?_, by simp [mergeRunsFrom]⟩
    intro x hx
    rcases List.mem_singleton.1 hx with rfl
    exact hc
  | cons row rest ih =>
    intro cur hc hr hp hgt
    have hrow : inSpan L row := hr row (List.mem_cons_self _ _)
    have hptail := (List.pairwise_cons.1 hp).2
    have hphead := (List.pairwise_cons.1 hp).1
    rw [mergeRunsFrom]
    split
    · apply ih ⟨cur.Start, max cur.End row.End, cur.Primary_Class⟩
      · exact ⟨hc.1, le_trans hc.2.1 (le_max_left _ _), max_le hc.2.2 hrow.2.2⟩
      · exact fun r h => hr r (List.mem_cons_of_mem _ h)
      · exact hptail
      · intro r hrm
        exact max_lt (hgt r (List.mem_cons_of_mem _ hrm)) (hphead r hrm)
    · have hrec := ih row hrow (fun r h => hr r (List.mem_cons_of_mem _ h)) hptail hphead
      constructor
      · intro x hx
        rcases List.mem_cons.1 hx with rfl | hx2
        · exact hc
        · exact hrec.1 x hx2
      · rw [List.chain'_cons']
        refine ⟨?_, hrec.2⟩
        intro y hy
        obtain ⟨e, he⟩ := mergeRunsFrom_head rest row
        rw [he] at hy
        rcases Option.mem_some_iff.1 hy with rfl
        show cur.End + 1 ≤ row.Start
        have := hgt row (List.mem_cons_self _ _)
        omega

theorem insertGaps_ne_nil (x : IRec0) (xs : List IRec0) : insertGaps (x :: xs) ≠ [] := by
  cases xs with
  | nil => simp [insertGaps]
  | cons y t =>
    rw [insertGaps]
    split <;> simp

theorem insertGaps_head (x : IRec0) (xs : List IRec0) :
    (insertGaps (x :: xs)).head? = some x := by
  cases xs with
  | nil => rfl
  | cons y t =>
    rw [insertGaps]
    split <;> rfl

theorem getLast?_cons_of_ne_nil {α : Type} (a : α) {l : List α} (h : l ≠ []) :
    (a :: l).getLast? = l.getLast? := by
  cases l with
  | nil => exact absurd rfl h
  | cons b t => exact List.getLast?_cons_cons

theorem insertGaps_getLast : ∀ (xs : List IRec0) (x : IRec0),
    (insertGaps (x :: xs)).getLast? = (x :: xs).getLast? := by
  intro xs
  induction xs with
  | nil => intro x; rfl
  | cons y t ih =>
    intro x
    rw [insertGaps]
    split
    · rw [getLast?_cons_of_ne_nil x (by simp),
        getLast?_cons_of_ne_nil _ (insertGaps_ne_nil y t), ih, List.getLast?_cons_cons]
    · rw [getLast?_cons_of_ne_nil x (insertGaps_ne_nil y t), ih, List.getLast?_cons_cons]

theorem insertGaps_contig : ∀ (m : List IRec0),
    List.Chain' (fun a b => a.End + 1 ≤ b.Start) m →
    List.Chain' (fun a b => b.Start = a.End + 1) (insertGaps m) := by
  intro m
  induction m with
  | nil => intro _; simp [insertGaps]
  | cons x xs ih =>
    intro h
    cases xs with
    | nil => simp [insertGaps]
    | cons y rest =>
      rcases List.chain'_cons.1 h with ⟨hxy, htail⟩
      rw [insertGaps]
      split
      · rw [List.chain'_cons, List.chain'_cons']
        refine ⟨rfl, ?_, ih htail⟩
        intro z hz
        rw [insertGaps_head] at hz
        rcases Option.mem_some_iff.1 hz with rfl
        show y.Start = (y.Start - 1) + 1
        omega
      · rename_i hgap
        rw [List.chain'_cons']
        refine ⟨?_, ih htail⟩
        intro z hz
        rw [insertGaps_head] at hz
        rcases Option.mem_some_iff.1 hz with rfl
        omega

theorem insertGaps_SLC : ∀ (m : List IRec0),
    List.Chain' (fun a b => a.Primary_Class = b.Primary_Class → a.End + 2 ≤ b.Start) m →
    List.Chain' (fun a b => a.Primary_Class = b.Primary_Class → b.Start = a.End + 1)
      (insertGaps m) := by
  intro m
  induction m with
  | nil => intro _; simp [insertGaps]
  | cons x xs ih =>
    intro h
    cases xs with
    | nil => simp [insertGaps]
    | cons y rest =>
      rcases List.chain'_cons.1 h with ⟨hxy, htail⟩
      rw [insertGaps]
      split
      · rw [List.chain'_cons, List.chain'_cons']
        refine ⟨fun _ => rfl, ?_, ih htail⟩
        intro z hz
        rw [insertGaps_head] at hz
        rcases Option.mem_some_iff.1 hz with rfl
        intro _
        show y.Start = (y.Start - 1) + 1
        omega
      · rename_i hgap
        rw [List.chain'_cons']
        refine ⟨?_, ih htail⟩
        intro z hz
        rw [insertGaps_head] at hz
        rcases Option.mem_some_iff.1 hz with rfl
        intro hcl
        have := hxy hcl
        omega

theorem insertGaps_classes : ∀ (m : List IRec0), ∀ x ∈ insertGaps m,
    x.Primary_Class ∈ m.map (fun t => t.Primary_Class) := by
  intro m
  induction m with
  | nil => intro x hx; simp [insertGaps] at hx
  | cons a xs ih =>
    intro x hx
    cases xs with
    | nil =>
      rcases List.mem_singleton.1 hx with rfl
      simp
    | cons y rest =>
      rw [insertGaps] at hx
      rw [List.map_cons]
      split at hx
      · rcases List.mem_cons.1 hx with rfl | hx2
        · exact List.mem_cons_self _ _
        · rcases List.mem_cons.1 hx2 with rfl | hx3
          · exact List.mem_cons_self _ _
          · exact List.mem_cons_of_mem _ (ih x hx3)
      · rcases List.mem_cons.1 hx with rfl | hx2
        · exact List.mem_cons_self _ _
        · exact List.mem_cons_of_mem _ (ih x hx2)

theorem insertGaps_at_gap : ∀ (pre : List IRec0) (a b : IRec0) (post : List IRec0),
    a.End + 2 ≤ b.Start →
    ∃ pre2, insertGaps (pre ++ a :: b :: post) =
      pre2 ++ a :: ⟨a.End + 1, b.Start - 1, a.Primary_Class⟩ :: insertGaps (b :: post) := by
  intro pre
  induction pre with
  | nil =>
    intro a b post hgap
    refine ⟨[], ?_⟩
    rw [List.nil_append, insertGaps, if_pos (by omega), List.nil_append]
  | cons p pre ih =>
    intro a b post hgap
    obtain ⟨pre2, hpre2⟩ := ih a b post hgap
    rcases hq : pre ++ a :: b :: post with _ | ⟨q, qs⟩
    · exact absurd hq (by simp)
    · rw [List.cons_append, hq, insertGaps]
      split
      · exact ⟨p :: ⟨p.End + 1, q.Start - 1, p.Primary_Class⟩ :: pre2, by
          rw [← hq, hpre2]; rfl⟩
      · exact ⟨p :: pre2, by rw [← hq, hpre2]; rfl⟩

theorem addFlanks_eq (lengths : List (String × Int)) (c : String) (x : IRec0)
    (xs : List IRec0) :
    addFlanks lengths c (x :: xs) =
      (if 1 < x.Start then [⟨1, x.Start - 1, "Intergenic"⟩] else ([] : List IRec0)) ++
        insertGaps (x :: xs) ++
      (match lengths.lookup c with
        | some L =>
            if ((x :: xs).getLast (List.cons_ne_nil x xs)).End < L then
              [⟨((x :: xs).getLast (List.cons_ne_nil x xs)).End + 1, L, "Intergenic"⟩]
            else ([] : List IRec0)
        | none => ([] : List IRec0)) := rfl

theorem chain'_flank_append {α : Type} {R : α → α → Prop} (lead g trail : List α)
    (hlead : List.Chain' R lead) (hg : List.Chain' R g) (htrail : List.Chain' R trail)
    (hlg : ∀ p ∈ lead.getLast?, ∀ q ∈ g.head?, R p q)
    (hgt : ∀ p ∈ (lead ++ g).getLast?, ∀ q ∈ trail.head?, R p q) :
    List.Chain' R ((lead ++ g) ++ trail) := by
  rw [List.chain'_append]
  exact ⟨List.chain'_append.2 ⟨hlead, hg, hlg⟩, htrail, hgt⟩

theorem finalMergeFrom_ne_nil : ∀ (rest : List IRec0) (cur : IRec0),
    finalMergeFrom rest cur ≠ [] := by
  intro rest
  induction rest with
  | nil => intro cur; simp [finalMergeFrom]
  | cons row rest ih =>
    intro cur
    rw [finalMergeFrom]
    split
    · exact ih _
    · simp

theorem finalMergeFrom_head : ∀ (rest : List IRec0) (cur : IRec0),
    ∃ e, (finalMergeFrom rest cur).head? = some ⟨cur.Start, e, cur.Primary_Class⟩ := by
  intro rest
  induction rest with
  | nil => intro cur; exact ⟨cur.End, rfl⟩
  | cons row rest ih =>
    intro cur
    rw [finalMergeFrom]
    split
    · obtain ⟨e, he⟩ := ih ⟨cur.Start, row.End, cur.Primary_Class⟩
      exact ⟨e, he⟩
    · exact ⟨cur.End, rfl⟩

theorem finalMergeFrom_getLast_end : ∀ (rest : List IRec0) (cur : IRec0),
    (finalMergeFrom rest cur).getLast?.map (fun t => t.End) =
      ((cur :: rest).getLast?).map (fun t => t.End) := by
  intro rest
  induction rest with
  | nil => intro cur; rfl
  | cons row rest ih =>
    intro cur
    rw [finalMergeFrom]
    split
    · rw [ih ⟨cur.Start, row.End, cur.Primary_Class⟩]
      cases rest with
      | nil => rfl
      | cons r t => simp [List.getLast?_cons_cons]
    · rw [getLast?_cons_of_ne_nil cur (finalMergeFrom_ne_nil rest row), ih row,
        List.getLast?_cons_cons]

theorem finalMergeFrom_contig : ∀ (rest : List IRec0) (cur : IRec0),
    List.Chain' (fun a b => b.Start = a.End + 1) (cur :: rest) →
    List.Chain' (fun a b => b.Start = a.End + 1) (finalMergeFrom rest cur) := by
  intro rest
  induction rest with
  | nil => intro cur _; simp [finalMergeFrom]
  | cons row rest ih =>
    intro cur h
    rcases List.chain'_cons.1 h with ⟨hcr, htail⟩
    rw [finalMergeFrom]
    split
    · apply ih
      rw [List.chain'_cons']
      refine ⟨?_, (List.chain'_cons'.1 htail).2⟩
      intro z hz
      have hz' := (List.chain'_cons'.1 htail).1 z hz
      exact hz'
    · rw [List.chain'_cons']
      refine ⟨?_, ih row htail⟩
      intro z hz
      obtain ⟨e, he⟩ := finalMergeFrom_head rest row
      rw [he] at hz
      rcases Option.mem_some_iff.1 hz with rfl
      exact hcr

theorem finalMergeFrom_NE : ∀ (rest : List IRec0) (cur : IRec0),
    List.Chain' (fun a b => a.Primary_Class = b.Primary_Class → b.Start = a.End + 1)
      (cur :: rest) →
    List.Chain' (fun a b => a.Primary_Class ≠ b.Primary_Class) (finalMergeFrom rest cur) := by
  intro rest
  induction rest with
  | nil => intro cur _; simp [finalMergeFrom]
  | cons row rest ih =>
    intro cur h
    rcases List.chain'_cons.1 h with ⟨hcr, htail⟩
    rw [finalMergeFrom]
    split
    · rename_i hm
      apply ih
      rw [List.chain'_cons']
      refine ⟨?_, (List.chain'_cons'.1 htail).2⟩
      intro z hz
      have hz' := (List.chain'_cons'.1 htail).1 z hz
      intro hcl
      show z.Start = row.End + 1
      exact hz' (hm.1.trans hcl)
    · rename_i hflush
      rw [List.chain'_cons']
      refine ⟨?_, ih row htail⟩
      intro z hz
      obtain ⟨e, he⟩ := finalMergeFrom_head rest row
      rw [he] at hz
      rcases Option.mem_some_iff.1 hz with rfl
      show cur.Primary_Class ≠ row.Primary_Class
      intro heq
      exact hflush ⟨heq.symm, hcr heq⟩

theorem chain'_len_le_one {α : Type} {R : α → α → Prop} :
    ∀ l : List α, l.length ≤ 1 → List.Chain' R l := by
  intro l h
  cases l with
  | nil => exact List.chain'_nil
  | cons a t =>
    cases t with
    | nil => exact List.chain'_singleton a
    | cons b t2 => simp at h

theorem addFlanks_SLC (lengths : List (String × Int)) (c : String) (m : List IRec0)
    (h2 : List.Chain' (fun a b => a.Primary_Class = b.Primary_Class → a.End + 2 ≤ b.Start) m) :
    List.Chain' (fun a b => a.Primary_Class = b.Primary_Class → b.Start = a.End + 1)
      (addFlanks lengths c m) := by
  cases m with
  | nil => simp [addFlanks]
  | cons x xs =>
    rw [addFlanks_eq]
    apply chain'_flank_append
    · split <;> simp
    · exact insertGaps_SLC _ h2
    · cases hlk : List.lookup c lengths with
      | none => exact List.chain'_nil
      | some L =>
        dsimp only
        split <;> simp
    · intro p hp q hq
      rw [insertGaps_head] at hq
      rcases Option.mem_some_iff.1 hq with rfl
      by_cases hl : (1 : Int) < x.Start
      · rw [if_pos hl] at hp
        rcases Option.mem_some_iff.1 hp with rfl
        intro _
        show x.Start = (x.Start - 1) + 1
        omega
      · rw [if_neg hl] at hp
        simp at hp
    · intro p hp q hq
      cases hlk : List.lookup c lengths with
      | none => rw [hlk] at hq; simp at hq
      | some L =>
        rw [hlk] at hq
        dsimp only at hq
        by_cases ht : ((x :: xs).getLast (List.cons_ne_nil x xs)).End < L
        · rw [if_pos ht] at hq
          rcases Option.mem_some_iff.1 hq with rfl
          rw [List.getLast?_append, insertGaps_getLast,
            List.getLast?_eq_getLast (x :: xs) (List.cons_ne_nil x xs)] at hp
          rcases Option.mem_some_iff.1 hp with rfl
          intro _
          rfl
        · rw [if_neg ht] at hq
          simp at hq

theorem addFlanks_tiles (lengths : List (String × Int)) (c : String) (x : IRec0)
    (xs : List IRec0) (L : Int) (hlk : List.lookup c lengths = some L)
    (hin : ∀ t ∈ x :: xs, inSpan L t)
    (hch : List.Chain' (fun a b => a.End + 1 ≤ b.Start) (x :: xs)) :
    addFlanks lengths c (x :: xs) ≠ [] ∧
    (addFlanks lengths c (x :: xs)).head?.map (fun t => t.Start) = some 1 ∧
    (addFlanks lengths c (x :: xs)).getLast?.map (fun t => t.End) = some L ∧
    List.Chain' (fun a b => b.Start = a.End + 1) (addFlanks lengths c (x :: xs)) := by
  have hxIn : inSpan L x := hin x (List.mem_cons_self _ _)
  have hlastIn : inSpan L ((x :: xs).getLast (List.cons_ne_nil x xs)) :=
    hin _ (List.getLast_mem _)
  have hgl : (insertGaps (x :: xs)).getLast? =
      some ((x :: xs).getLast (List.cons_ne_nil x xs)) := by
    rw [insertGaps_getLast, List.getLast?_eq_getLast (x :: xs) (List.cons_ne_nil x xs)]
  rw [addFlanks_eq, hlk]
  dsimp only
  refine ⟨?_, ?_, ?_, ?_⟩
  · intro hbad
    rcases List.append_eq_nil.1 hbad with ⟨hbad2, -⟩
    rcases List.append_eq_nil.1 hbad2 with ⟨-, hbad3⟩
    exact insertGaps_ne_nil x xs hbad3
  · rw [List.head?_append, List.head?_append, insertGaps_head]
    by_cases hl : (1 : Int) < x.Start
    · rw [if_pos hl]
      rfl
    · have hx1 : x.Start = 1 := le_antisymm (not_lt.1 hl) hxIn.1
      rw [if_neg hl]
      simp [hx1]
  · rw [List.getLast?_append]
    by_cases ht : ((x :: xs).getLast (List.cons_ne_nil x xs)).End < L
    · rw [if_pos ht]
      rfl
    · have hxL : ((x :: xs).getLast (List.cons_ne_nil x xs)).End = L :=
        le_antisymm hlastIn.2.2 (not_lt.1 ht)
      rw [if_neg ht]
      simp only [List.getLast?_nil, Option.or_none, List.getLast?_append, hgl]
      simp [hxL]
  · apply chain'_flank_append
    · split <;> simp
    · exact insertGaps_contig _ hch
    · split <;> simp
    · intro p hp q hq
      rw [insertGaps_head] at hq
      rcases Option.mem_some_iff.1 hq with rfl
      by_cases hl : (1 : Int) < x.Start
      · rw [if_pos hl] at hp
        rcases Option.mem_some_iff.1 hp with rfl
        show x.Start = (x.Start - 1) + 1
        omega
      · rw [if_neg hl] at hp
        simp at hp
    · intro p hp q hq
      by_cases ht : ((x :: xs).getLast (List.cons_ne_nil x xs)).End < L
      · rw [if_pos ht] at hq
        rcases Option.mem_some_iff.1 hq with rfl
        rw [List.getLast?_append, hgl] at hp
        rcases Option.mem_some_iff.1 hp with rfl
        rfl
      · rw [if_neg ht] at hq
        simp at hq

theorem restrictI_append (c : String) (l1 l2 : List IRec) :
    restrictI c (l1 ++ l2) = restrictI c l1 ++ restrictI c l2 := by
  simp [restrictI, List.filter_append]

theorem restrictI_attach_eq (c : String) (l : List IRec0) :
    restrictI c (l.map (toInterval c)) = l.map (toInterval c) := by
  apply List.filter_eq_self.2
  intro a ha
  rcases List.mem_map.1 ha with ⟨t, -, rfl⟩
  simp [toInterval]

theorem restrictI_attach_ne {c c' : String} (h : c' ≠ c) (l : List IRec0) :
    restrictI c (l.map (toInterval c')) = [] := by
  apply List.filter_eq_nil_iff.2
  intro a ha
  rcases List.mem_map.1 ha with ⟨t, -, rfl⟩
  simp [toInterval, h]

theorem restrictI_flatMap (lengths : List (String × Int)) (data : List GRec) (c : String) :
    ∀ (cs : List String), cs.Nodup →
    restrictI c (cs.flatMap (fun c' => (chromIntervals lengths c' data).map (toInterval c'))) =
      if c ∈ cs then (chromIntervals lengths c data).map (toInterval c) else [] := by
  intro cs
  induction cs with
  | nil => intro _; simp [restrictI]
  | cons c' cs ih =>
    intro hnd
    rw [List.flatMap_cons, restrictI_append, ih (List.nodup_cons.1 hnd).2]
    by_cases hc : c' = c
    · subst hc
      rw [restrictI_attach_eq, if_pos (List.mem_cons_self _ _),
        if_neg (List.nodup_cons.1 hnd).1, List.append_nil]
    · rw [restrictI_attach_ne hc, List.nil_append]
      by_cases hmem : c ∈ cs
      · rw [if_pos hmem, if_pos (List.mem_cons_of_mem _ hmem)]
      · rw [if_neg hmem, if_neg (by
          intro hbad
          rcases List.mem_cons.1 hbad with rfl | hbad2
          · exact hc rfl
          · exact hmem hbad2)]

theorem restrictI_create (lengths : List (String × Int)) (data : List GRec) (c : String) :
    restrictI c (create_gene_intervals lengths data) =
      if restrict c data = [] then []
      else (chromIntervals lengths c data).map (toInterval c) := by
  rw [create_gene_intervals,
    restrictI_flatMap lengths data c _ (nodup_firstDedup _)]
  by_cases h : restrict c data = []
  · rw [if_pos h, if_neg]
    intro hmem
    exact (restrict_ne_nil_iff.2 ((mem_firstDedup _).1 hmem)) h
  · rw [if_neg h, if_pos ((mem_firstDedup _).2 (restrict_ne_nil_iff.1 h))]

theorem mergeRuns_chain_gap (l : List IRec0) :
    List.Chain' (fun a b => a.Primary_Class = b.Primary_Class → a.End + 2 ≤ b.Start)
      (mergeRuns l) := by
  cases l with
  | nil => exact List.chain'_nil
  | cons x xs => exact mergeRunsFrom_chain_gap xs x

/-- C6: in the final output of `create_gene_intervals`, no two consecutive
interval rows of the same chromosome share the same label. -/
theorem c6_no_adjacent_same_label (lengths : List (String × Int)) (data : List GRec)
    (c : String) :
    List.Chain' (fun a b => a.Primary_Class ≠ b.Primary_Class)
      (restrictI c (create_gene_intervals lengths data)) := by
  rw [restrictI_create]
  split
  · exact List.chain'_nil
  · rw [List.chain'_map]
    rw [chromIntervals, preMergeIntervals]
    rcases haf : addFlanks lengths c (mergeRuns ((chromData c data).map toIRec0))
      with _ | ⟨y, ys⟩
    · exact List.chain'_nil
    · have hSLC : List.Chain'
          (fun a b => a.Primary_Class = b.Primary_Class → b.Start = a.End + 1) (y :: ys) := by
        rw [← haf]
        exact addFlanks_SLC _ _ _ (mergeRuns_chain_gap _)
      exact finalMergeFrom_NE ys y hSLC

/-- C5 (amended): per-chromosome tiling of `[1, L]` holds for a nonempty,
in-range, pairwise-disjoint gene-record input on a chromosome whose length is
recorded. -/
theorem c5_partition_tiles (lengths : List (String × Int)) (data : List GRec) (c : String)
    (L : Int) (hlk : List.lookup c lengths = some L) (hne : restrict c data ≠ [])
    (hin : ∀ r ∈ restrict c data, inRange L r)
    (hdisj : pairwiseDisjoint (restrict c data)) :
    tilesChrom (restrictI c (create_gene_intervals lengths data)) 1 L := by
  rw [restrictI_create, if_neg hne]
  have hvperm := sortByStart_perm (restrict c data)
  have hvne : chromData c data ≠ [] := by
    rw [chromData]
    intro hbad
    rw [← List.length_eq_zero, sortByStart_length, List.length_eq_zero] at hbad
    exact hne hbad
  have hsorted := sortByStart_pairwise (restrict c data)
  have hdisj2 : List.Pairwise (fun a b : GRec => a.End < b.Start ∨ b.End < a.Start)
      (chromData c data) := by
    rw [chromData]
    exact (hvperm.pairwise_iff (fun h => h.symm.imp (fun x => x) (fun x => x))).2 hdisj
  have hinv : ∀ r ∈ chromData c data, inRange L r := by
    intro r hr
    rw [chromData, mem_sortByStart] at hr
    exact hin r hr
  have hES : List.Pairwise (fun a b : GRec => a.End < b.Start) (chromData c data) := by
    have hand := List.Pairwise.imp₂ (fun a b h1 h2 => And.intro h1 h2)
      (by rw [chromData]; exact hsorted) hdisj2
    apply hand.imp_of_mem
    intro a b ha hb hab
    rcases hab.2 with h | h
    · exact h
    · exfalso
      have hA := hinv a ha
      have hB := hinv b hb
      have := hab.1
      omega
  rcases ht : (chromData c data).map toIRec0 with _ | ⟨x, xs⟩
  · exact absurd (List.map_eq_nil.1 ht) hvne
  · have htin : ∀ u ∈ x :: xs, inSpan L u := by
      rw [← ht]
      intro u hu
      rcases List.mem_map.1 hu with ⟨r, hr, rfl⟩
      exact hinv r hr
    have htES : List.Pairwise (fun a b : IRec0 => a.End < b.Start) (x :: xs) := by
      rw [← ht]
      exact List.pairwise_map.2 hES
    have hmr := mergeRunsFrom_tiling L xs x (htin x (List.mem_cons_self _ _))
      (fun u hu => htin u (List.mem_cons_of_mem _ hu))
      (List.pairwise_cons.1 htES).2 (List.pairwise_cons.1 htES).1
    rcases hm : mergeRunsFrom xs x with _ | ⟨y, ys⟩
    · exact absurd hm (mergeRunsFrom_ne_nil xs x)
    · have hminspan : ∀ u ∈ y :: ys, inSpan L u := by
        rw [← hm]
        exact hmr.1
      have hmchain : List.Chain' (fun a b => a.End + 1 ≤ b.Start) (y :: ys) := by
        rw [← hm]
        exact hmr.2
      have haf := addFlanks_tiles lengths c y ys L hlk hminspan hmchain
      have hafeq : preMergeIntervals lengths c data = addFlanks lengths c (y :: ys) := by
        rw [preMergeIntervals, ht]
        show addFlanks lengths c (mergeRuns (x :: xs)) = _
        rw [show mergeRuns (x :: xs) = mergeRunsFrom xs x from rfl, hm]
      rcases hpm : addFlanks lengths c (y :: ys) with _ | ⟨z, zs⟩
      · exact absurd hpm haf.1
      · have hzstart : z.Start = 1 := by
          have := haf.2.1
          rw [hpm] at this
          simpa using this
        have hlastL : ((z :: zs).getLast?).map (fun t => t.End) = some L := by
          have := haf.2.2.1
          rwa [hpm] at this
        have hcontig : List.Chain' (fun a b => b.Start = a.End + 1) (z :: zs) := by
          have := haf.2.2.2
          rwa [hpm] at this
        have hfinal : chromIntervals lengths c data = finalMergeFrom zs z := by
          rw [chromIntervals, hafeq, hpm]
          rfl
        rw [hfinal]
        refine ⟨?_, ?_, ?_, ?_⟩
        · simp [finalMergeFrom_ne_nil]
        · rw [List.head?_map]
          obtain ⟨e, he⟩ := finalMergeFrom_head zs z
          rw [he]
          simp [toInterval, hzstart]
        · rw [List.getLast?_map]
          have := finalMergeFrom_getLast_end zs z
          rw [hlastL] at this
          rcases hgl : (finalMergeFrom zs z).getLast? with _ | w
          · rw [hgl] at this
            simp at this
          · rw [hgl] at this
            simp only [Option.map_some'] at this
            simp [toInterval, Option.some.inj this]
        · rw [List.chain'_map]
          exact finalMergeFrom_contig zs z hcontig

/-- C5 (counterexample): with chromosome "1" of recorded length 1000, the
single gene record (500, 2000) — an arbitrary gene-record input in the sense
of the claim — yields a partition whose last interval ends at 2000, not 1000,
so the output does not tile [1, 1000]. -/
theorem c5_counterexample :
    List.lookup "1" [("1", (1000 : Int))] = some 1000 ∧
    ¬ tilesChrom (restrictI "1" (create_gene_intervals [("1", 1000)]
      [⟨"G1", "1", 500, 2000, "A"⟩])) 1 1000 :=
  ⟨by decide, by decide⟩

theorem c5_partition_tiles_witness :
    (List.lookup "1" [("1", (1000 : Int))] = some 1000 ∧
     restrict "1" [⟨"G1", "1", 100, 200, "A"⟩] ≠ [] ∧
     (∀ r ∈ restrict "1" [⟨"G1", "1", 100, 200, "A"⟩], inRange 1000 r) ∧
     pairwiseDisjoint (restrict "1" [⟨"G1", "1", 100, 200, "A"⟩])) ∧
    tilesChrom (restrictI "1" (create_gene_intervals [("1", 1000)]
      [⟨"G1", "1", 100, 200, "A"⟩])) 1 1000 :=
  ⟨⟨by decide, by decide, by decide, by decide⟩,
   c5_partition_tiles [("1", 1000)] [⟨"G1", "1", 100, 200, "A"⟩] "1" 1000
     (by decide) (by decide) (by decide) (by decide)⟩

/-- C9: a chromosome with no gene records contributes no intervals to the
output of `create_gene_intervals`, and the empty input yields the empty
table (whose row type carries the columns Chromosome, Start, End,
Primary_Class, Center, Length). -/
theorem c9_empty_input (lengths : List (String × Int)) (data : List GRec) (c : String)
    (h : restrict c data = []) :
    restrictI c (create_gene_intervals lengths data) = [] ∧
    ∀ lengths2 : List (String × Int), create_gene_intervals lengths2 [] = [] := by
  refine ⟨?_, fun lengths2 => rfl⟩
  rw [restrictI_create, if_pos h]

theorem c9_empty_input_witness :
    restrict "chrX" [⟨"G1", "1", 10, 20, "A"⟩] = [] ∧
    (restrictI "chrX" (create_gene_intervals [] [⟨"G1", "1", 10, 20, "A"⟩]) = [] ∧
     ∀ lengths2 : List (String × Int), create_gene_intervals lengths2 [] = []) :=
  ⟨by decide, c9_empty_input [] [⟨"G1", "1", 10, 20, "A"⟩] "chrX" (by decide)⟩

theorem mergeRuns_classes_ne_intergenic {data : List GRec} {c : String}
    (hni : ∀ r ∈ restrict c data, r.Primary_Class ≠ "Intergenic") :
    ∀ x ∈ mergeRuns ((chromData c data).map toIRec0), x.Primary_Class ≠ "Intergenic" := by
  have hTcl : ∀ s ∈ ((chromData c data).map toIRec0).map (fun u => u.Primary_Class),
      s ≠ "Intergenic" := by
    intro s hs
    rcases List.mem_map.1 hs with ⟨u, hu, rfl⟩
    rcases List.mem_map.1 hu with ⟨r, hr, rfl⟩
    rw [chromData, mem_sortByStart] at hr
    exact hni r hr
  intro x hx
  rcases ht : (chromData c data).map toIRec0 with _ | ⟨a, as⟩
  · rw [ht] at hx
    simp [mergeRuns] at hx
  · rw [ht] at hx
    rcases mergeRunsFrom_classes as a x hx with h | h
    · apply hTcl
      rw [ht, h, List.map_cons]
      exact List.mem_cons_self _ _
    · apply hTcl
      rw [ht, List.map_cons]
      exact List.mem_cons_of_mem _ h

/-- C10: when no input record of chromosome `c` carries the label
"Intergenic", the `final_intervals` sequence built before the final merge has
"Intergenic" only at its first or last position; an internal gap between two
consecutive merged regions is filled with an interval spanning exactly the
gap and carrying the preceding region's label, never "Intergenic". -/
theorem c10_gap_fill_labels (lengths : List (String × Int)) (data : List GRec) (c : String)
    (hni : ∀ r ∈ restrict c data, r.Primary_Class ≠ "Intergenic") :
    (∀ x ∈ insertGaps (mergeRuns ((chromData c data).map toIRec0)),
        x.Primary_Class ≠ "Intergenic") ∧
    (∀ (pre post : List IRec0) (a b : IRec0),
        mergeRuns ((chromData c data).map toIRec0) = pre ++ a :: b :: post →
        a.End + 2 ≤ b.Start →
        ∃ pre2, insertGaps (mergeRuns ((chromData c data).map toIRec0)) =
          pre2 ++ a :: ⟨a.End + 1, b.Start - 1, a.Primary_Class⟩ :: insertGaps (b :: post)) ∧
    (∀ x ∈ preMergeIntervals lengths c data, x.Primary_Class = "Intergenic" →
        (preMergeIntervals lengths c data).head? = some x ∨
        (preMergeIntervals lengths c data).getLast? = some x) := by
  have hmcl := mergeRuns_classes_ne_intergenic hni
  refine ⟨?_, ?_, ?_⟩
  · intro x hx
    have hcl := insertGaps_classes _ x hx
    rcases List.mem_map.1 hcl with ⟨y, hy, hyc⟩
    intro hbad
    exact hmcl y hy (by rw [hyc]; exact hbad)
  · intro pre post a b hmr hgap
    rw [hmr]
    exact insertGaps_at_gap pre a b post hgap
  · intro x hx hint
    rw [preMergeIntervals] at hx ⊢
    rcases hm : mergeRuns ((chromData c data).map toIRec0) with _ | ⟨y, ys⟩
    · rw [hm] at hx
      simp [addFlanks] at hx
    · rw [hm] at hx
      rw [addFlanks_eq] at hx ⊢
      rcases List.mem_append.1 hx with hx1 | hxtr
      · rcases List.mem_append.1 hx1 with hlead | hgmem
        · left
          by_cases hl : (1 : Int) < y.Start
          · rw [if_pos hl] at hlead ⊢
            rcases List.mem_singleton.1 hlead with rfl
            rfl
          · rw [if_neg hl] at hlead
            simp at hlead
        · exfalso
          have hcl := insertGaps_classes _ x hgmem
          rcases List.mem_map.1 hcl with ⟨z, hz, hzc⟩
          have hz2 : z ∈ mergeRuns ((chromData c data).map toIRec0) := by
            rw [hm]; exact hz
          exact hmcl z hz2 (by rw [hzc]; exact hint)
      · right
        revert hxtr
        rcases hlk : List.lookup c lengths with _ | L <;> intro hxtr
        · simp at hxtr
        · dsimp only at hxtr ⊢
          by_cases ht : ((y :: ys).getLast (List.cons_ne_nil y ys)).End < L
          · rw [if_pos ht] at hxtr ⊢
            rcases List.mem_singleton.1 hxtr with rfl
            exact List.getLast?_concat _
          · rw [if_neg ht] at hxtr
            simp at hxtr

theorem c10_gap_fill_labels_witness :
    (∀ r ∈ restrict "1" [⟨"G1", "1", 10, 20, "A"⟩, ⟨"G2", "1", 40, 50, "B"⟩],
        r.Primary_Class ≠ "Intergenic") ∧
    ((∀ x ∈ insertGaps (mergeRuns
        ((chromData "1" [⟨"G1", "1", 10, 20, "A"⟩, ⟨"G2", "1", 40, 50, "B"⟩]).map toIRec0)),
        x.Primary_Class ≠ "Intergenic") ∧
    (∀ (pre post : List IRec0) (a b : IRec0),
        mergeRuns ((chromData "1"
            [⟨"G1", "1", 10, 20, "A"⟩, ⟨"G2", "1", 40, 50, "B"⟩]).map toIRec0) =
          pre ++ a :: b :: post →
        a.End + 2 ≤ b.Start →
        ∃ pre2, insertGaps (mergeRuns ((chromData "1"
            [⟨"G1", "1", 10, 20, "A"⟩, ⟨"G2", "1", 40, 50, "B"⟩]).map toIRec0)) =
          pre2 ++ a :: ⟨a.End + 1, b.Start - 1, a.Primary_Class⟩ :: insertGaps (b :: post)) ∧
    (∀ x ∈ preMergeIntervals [("1", 100)] "1"
        [⟨"G1", "1", 10, 20, "A"⟩, ⟨"G2", "1", 40, 50, "B"⟩],
        x.Primary_Class = "Intergenic" →
        (preMergeIntervals [("1", 100)] "1"
          [⟨"G1", "1", 10, 20, "A"⟩, ⟨"G2", "1", 40, 50, "B"⟩]).head? = some x ∨
        (preMergeIntervals [("1", 100)] "1"
          [⟨"G1", "1", 10, 20, "A"⟩, ⟨"G2", "1", 40, 50, "B"⟩]).getLast? = some x)) :=
  ⟨by decide, c10_gap_fill_labels [("1", 100)]
    [⟨"G1", "1", 10, 20, "A"⟩, ⟨"G2", "1", 40, 50, "B"⟩] "1" (by decide)⟩

/-- C1 (code bug): for the non-overlapping genes (100, 200, "A") and
(400, 500, "B") on chromosome "1", the interval inserted into the internal
gap is (201, 399, "A") — it carries the preceding region's label, not
"Intergenic" as the claim (and the source's own comment above the insertion)
states — and the final merge therefore folds it into (100, 399, "A"). -/
theorem c1_internal_gap_label :
    preMergeIntervals [] "1" [⟨"G1", "1", 100, 200, "A"⟩, ⟨"G2", "1", 400, 500, "B"⟩] =
      [⟨1, 99, "Intergenic"⟩, ⟨100, 200, "A"⟩, ⟨201, 399, "A"⟩, ⟨400, 500, "B"⟩] ∧
    (create_gene_intervals [] [⟨"G1", "1", 100, 200, "A"⟩, ⟨"G2", "1", 400, 500, "B"⟩]).map
        rowOf =
      [("1", 1, 99, "Intergenic"), ("1", 100, 399, "A"), ("1", 400, 500, "B")] :=
  ⟨by decide, by decide⟩

/-- C2 (code bug): on the spec's end-to-end example (genes (100,200,"A"),
(150,250,"A"), (400,500,"B") on chromosome "1" of length 1000), the code
produces the partition [(1,99,Intergenic), (100,399,A), (400,500,B),
(501,1000,Intergenic)] — the internal gap [251,399] is labelled "A" and
merged into the "A" region — and not the five-interval partition the claim
expects. -/
theorem c2_end_to_end_eval :
    (create_gene_intervals [("1", 1000)] (check_and_resolve_overlaps
      [⟨"G1", "1", 100, 200, "A"⟩, ⟨"G2", "1", 150, 250, "A"⟩,
       ⟨"G3", "1", 400, 500, "B"⟩])).map rowOf =
      [("1", 1, 99, "Intergenic"), ("1", 100, 399, "A"),
       ("1", 400, 500, "B"), ("1", 501, 1000, "Intergenic")] ∧
    (create_gene_intervals [("1", 1000)] (check_and_resolve_overlaps
      [⟨"G1", "1", 100, 200, "A"⟩, ⟨"G2", "1", 150, 250, "A"⟩,
       ⟨"G3", "1", 400, 500, "B"⟩])).map rowOf ≠
      [("1", 1, 99, "Intergenic"), ("1", 100, 250, "A"), ("1", 251, 399, "Intergenic"),
       ("1", 400, 500, "B"), ("1", 501, 1000, "Intergenic")] :=
  ⟨by decide, by decide⟩
